import Mathlib

/-!
Verification of the ES / NS-ES emitter core
(`src/training/vanilla_es_emitter.py`).

The numeric arrays of the source (JAX `jnp.ndarray` of floats) are modelled
over `ℚ`; the real-valued square root used by the Euclidean distance has no
rational counterpart, so every definition that needs it takes an explicit
function `rsqrt : ℚ → ℚ` standing for the backend square root applied to the
sum of squared differences.  All statements proved below hold for every such
`rsqrt`.  Multi-dimensional arrays are modelled row-major as flat `List ℚ`
together with their dimensions, matching `ravel`/`reshape` semantics of the
source, or as `List (List ℚ)` (lists of rows) for the descriptor archive.
-/

/-! ## Generic sorting preliminaries

`jnp.argsort` and `jax.lax.top_k` sort values breaking ties by the smaller
index first.  `lexRel v` is the corresponding total order on indices:
compare values first, indices second. -/

/-- Index order used by `argsort`/`top_k`: value first, index as tie break. -/
def lexRel {α : Type} [LinearOrder α] (v : ℕ → α) (i j : ℕ) : Prop :=
  v i < v j ∨ (v i = v j ∧ i ≤ j)

/-- Strict version of `lexRel`: value strictly first, index strictly second. -/
def sLex {α : Type} [LinearOrder α] (v : ℕ → α) (i j : ℕ) : Prop :=
  v i < v j ∨ (v i = v j ∧ i < j)

instance {α : Type} [LinearOrder α] (v : ℕ → α) : DecidableRel (lexRel v) :=
  fun i j => by unfold lexRel; infer_instance

instance {α : Type} [LinearOrder α] (v : ℕ → α) : DecidableRel (sLex v) :=
  fun i j => by unfold sLex; infer_instance

instance {α : Type} [LinearOrder α] (v : ℕ → α) : IsTotal ℕ (lexRel v) := by
  constructor
  intro i j
  rcases lt_trichotomy (v i) (v j) with h | h | h
  · exact Or.inl (Or.inl h)
  · rcases Nat.le_total i j with hij | hij
    · exact Or.inl (Or.inr ⟨h, hij⟩)
    · exact Or.inr (Or.inr ⟨h.symm, hij⟩)
  · exact Or.inr (Or.inl h)

instance {α : Type} [LinearOrder α] (v : ℕ → α) : IsTrans ℕ (lexRel v) := by
  constructor
  intro i j k hij hjk
  rcases hij with h1 | ⟨e1, l1⟩
  · rcases hjk with h2 | ⟨e2, _⟩
    · exact Or.inl (h1.trans h2)
    · exact Or.inl (e2 ▸ h1)
  · rcases hjk with h2 | ⟨e2, l2⟩
    · exact Or.inl (e1 ▸ h2)
    · exact Or.inr ⟨e1.trans e2, l1.trans l2⟩

instance {α : Type} [LinearOrder α] (v : ℕ → α) : IsAntisymm ℕ (lexRel v) := by
  constructor
  intro i j hij hji
  rcases hij with h1 | ⟨e1, l1⟩
  · rcases hji with h2 | ⟨e2, _⟩
    · exact absurd (h1.trans h2) (lt_irrefl _)
    · exact absurd h1 (e2 ▸ lt_irrefl (v j))
  · rcases hji with h2 | ⟨_, l2⟩
    · exact absurd h2 (e1 ▸ lt_irrefl (v i))
    · exact Nat.le_antisymm l1 l2

theorem lexRel_of_sLex {α : Type} [LinearOrder α] (v : ℕ → α) {i j : ℕ}
    (h : sLex v i j) : lexRel v i j := by
  rcases h with h | ⟨e, l⟩
  · exact Or.inl h
  · exact Or.inr ⟨e, Nat.le_of_lt l⟩

theorem sLex_iff_lexRel_ne {α : Type} [LinearOrder α] (v : ℕ → α) {i j : ℕ} :
    sLex v i j ↔ lexRel v i j ∧ i ≠ j := by
  constructor
  · intro h
    refine ⟨lexRel_of_sLex v h, ?_⟩
    rintro rfl
    rcases h with h | ⟨_, l⟩
    · exact lt_irrefl _ h
    · exact lt_irrefl _ l
  · rintro ⟨h, hne⟩
    rcases h with h | ⟨e, l⟩
    · exact Or.inl h
    · exact Or.inr ⟨e, lt_of_le_of_ne l hne⟩

theorem not_sLex_self {α : Type} [LinearOrder α] (v : ℕ → α) (i : ℕ) :
    ¬ sLex v i i := by
  intro h
  rcases h with h | ⟨_, l⟩
  · exact lt_irrefl _ h
  · exact lt_irrefl _ l

/-- `argsortAux v n`: indices `0, …, n-1` sorted by value with
index tie break — the model of `jnp.argsort` on the value table `v`
(stable ascending sort of the first `n` entries). -/
def argsortAux {α : Type} [LinearOrder α] (v : ℕ → α) (n : ℕ) : List ℕ :=
  List.insertionSort (lexRel v) (List.range n)

theorem argsortAux_perm {α : Type} [LinearOrder α] (v : ℕ → α) (n : ℕ) :
    List.Perm (argsortAux v n) (List.range n) :=
  List.perm_insertionSort _ _

theorem argsortAux_sorted {α : Type} [LinearOrder α] (v : ℕ → α) (n : ℕ) :
    List.Sorted (lexRel v) (argsortAux v n) :=
  List.sorted_insertionSort _ _

theorem argsortAux_nodup {α : Type} [LinearOrder α] (v : ℕ → α) (n : ℕ) :
    (argsortAux v n).Nodup :=
  ((argsortAux_perm v n).nodup_iff).mpr (List.nodup_range n)

/-- Sorting the indices by value and reading the values off gives the sorted
value list itself. -/
theorem map_argsortAux {α : Type} [LinearOrder α] [DecidableEq α]
    (v : ℕ → α) (n : ℕ) :
    (argsortAux v n).map v
      = List.insertionSort (· ≤ ·) ((List.range n).map v) := by
  have hperm : List.Perm ((argsortAux v n).map v)
      (List.insertionSort (· ≤ ·) ((List.range n).map v)) :=
    ((argsortAux_perm v n).map v).trans
      (List.perm_insertionSort (· ≤ ·) ((List.range n).map v)).symm
  have hs1 : List.Sorted (· ≤ ·) ((argsortAux v n).map v) :=
    List.Pairwise.map v
      (fun a b hab => hab.elim le_of_lt (fun h => le_of_eq h.1))
      (argsortAux_sorted v n)
  have hs2 : List.Sorted (· ≤ ·)
      (List.insertionSort (· ≤ ·) ((List.range n).map v)) :=
    List.sorted_insertionSort (· ≤ ·) ((List.range n).map v)
  exact List.eq_of_perm_of_sorted hperm hs1 hs2

/-- Rank of index `m` among `0, …, n-1` under the stable ascending order on
values `v`: the number of indices strictly before `m` in `lexRel v` order. -/
def stableRank {α : Type} [LinearOrder α] (v : ℕ → α) (n m : ℕ) : ℕ :=
  (List.range n).countP (fun j => decide (sLex v j m))

/-- In a `lexRel`-sorted duplicate-free index list, the element at position
`p` has exactly `p` strict predecessors inside the list. -/
theorem sorted_countP_sLex {α : Type} [LinearOrder α] (v : ℕ → α) :
    ∀ (o : List ℕ), List.Sorted (lexRel v) o → o.Nodup →
      ∀ p, p < o.length →
        o.countP (fun j => decide (sLex v j (o.getD p 0))) = p := by
  intro o
  induction o with
  | nil => intro _ _ p hp; simp at hp
  | cons h t ih =>
    intro hs hn p hp
    have hhd : ∀ x ∈ t, lexRel v h x := List.rel_of_sorted_cons hs
    have hst : List.Sorted (lexRel v) t := hs.of_cons
    have hht : h ∉ t := (List.nodup_cons.mp hn).1
    have hnt : t.Nodup := (List.nodup_cons.mp hn).2
    cases p with
    | zero =>
      have hc : (h :: t).getD 0 0 = h := rfl
      rw [hc]
      apply List.countP_eq_zero.mpr
      intro a ha
      simp only [decide_eq_true_eq]
      intro hsl
      rcases List.mem_cons.mp ha with rfl | hat
      · exact not_sLex_self v a hsl
      · have h1 : lexRel v a h ∧ a ≠ h := (sLex_iff_lexRel_ne v).mp hsl
        exact h1.2 (IsAntisymm.antisymm a h h1.1 (hhd a hat))
    | succ p =>
      have hpt : p < t.length := Nat.lt_of_succ_lt_succ hp
      have hc : (h :: t).getD (p + 1) 0 = t.getD p 0 := rfl
      rw [hc]
      have hct : t.getD p 0 ∈ t := by
        rw [List.getD_eq_getElem t 0 hpt]
        exact List.getElem_mem hpt
      have hsl : sLex v h (t.getD p 0) := by
        apply (sLex_iff_lexRel_ne v).mpr
        refine ⟨hhd _ hct, ?_⟩
        rintro rfl
        exact hht hct
      rw [List.countP_cons_of_pos _ _ (by simpa using hsl), ih hst hnt p hpt]

/-- Position `p` of the argsort output holds the index of stable rank `p`. -/
theorem stableRank_argsortAux {α : Type} [LinearOrder α] (v : ℕ → α)
    (n p : ℕ) (hp : p < n) :
    stableRank v n ((argsortAux v n).getD p 0) = p := by
  have hlen : (argsortAux v n).length = n := by
    simpa using (argsortAux_perm v n).length_eq
  have hcount := sorted_countP_sLex v (argsortAux v n)
    (argsortAux_sorted v n) (argsortAux_nodup v n) p (by rwa [hlen])
  unfold stableRank
  rw [← (argsortAux_perm v n).countP_eq]
  exact hcount

/-- Entries of a permutation of `range n` are below `n`. -/
theorem mem_lt_of_perm_range {o : List ℕ} {n : ℕ}
    (hperm : List.Perm o (List.range n)) {x : ℕ} (hx : x ∈ o) : x < n :=
  List.mem_range.mp (hperm.mem_iff.mp hx)

/-- Reading a list back through `getD` over `range` reproduces the list. -/
theorem map_getD_range (l : List ℕ) (n : ℕ) (hl : l.length = n) :
    (List.range n).map (fun i => l.getD i 0) = l := by
  apply List.ext_getElem
  · simp [hl]
  · intro i h1 h2
    simp only [List.getElem_map, List.getElem_range]
    exact List.getD_eq_getElem l 0 h2

/-- Counting the naturals below `c` inside `range n`. -/
theorem countP_lt_range (c n : ℕ) (hc : c ≤ n) :
    (List.range n).countP (fun x => decide (x < c)) = c := by
  induction n with
  | zero => simp_all
  | succ n ih =>
    rw [List.range_succ, List.countP_append]
    rcases Nat.lt_or_ge n c with hn | hn
    · have hcn : c = n + 1 := Nat.le_antisymm hc hn
      subst hcn
      have hfull : (List.range n).countP (fun x => decide (x < n + 1)) = n := by
        rw [List.countP_eq_length.mpr]
        · exact List.length_range n
        · intro a ha
          simpa using Nat.lt_succ_of_lt (List.mem_range.mp ha)
      simp [hfull, hn]
    · have : (List.range n).countP (fun x => decide (x < c)) = c := ih hn
      have hez : ¬ (n < c) := Nat.not_lt.mpr hn
      simp [this, hez]

/-- For a value table that enumerates a permutation of `range n`, the stable
rank of an index is its value: there are exactly `v j` positions holding a
smaller value, and ties are impossible. -/
theorem stableRank_of_perm_range (ri : List ℕ) (n : ℕ)
    (hperm : List.Perm ri (List.range n)) (j : ℕ) (hj : j < n) :
    stableRank (fun i => ri.getD i 0) n j = ri.getD j 0 := by
  have hlen : ri.length = n := by simpa using hperm.length_eq
  have hnd : ri.Nodup := (hperm.nodup_iff).mpr (List.nodup_range n)
  have hinj : ∀ a, a < n → ri.getD a 0 = ri.getD j 0 → a = j := by
    intro a ha he
    rw [List.getD_eq_getElem ri 0 (by rwa [hlen]),
      List.getD_eq_getElem ri 0 (by rwa [hlen])] at he
    exact (List.Nodup.getElem_inj_iff hnd).mp he
  unfold stableRank
  have hstep1 : (List.range n).countP (fun i => decide (sLex (fun i => ri.getD i 0) i j))
      = (List.range n).countP (fun i => decide (ri.getD i 0 < ri.getD j 0)) := by
    apply List.countP_congr
    intro a ha
    have han : a < n := List.mem_range.mp ha
    simp only [decide_eq_true_eq]
    constructor
    · intro hsl
      rcases hsl with hlt | ⟨he, hlt⟩
      · exact hlt
      · exact absurd (hinj a han he) (Nat.ne_of_lt hlt)
    · intro hlt
      exact Or.inl hlt
  rw [hstep1]
  have hstep2 : (List.range n).countP (fun i => decide (ri.getD i 0 < ri.getD j 0))
      = ri.countP (fun x => decide (x < ri.getD j 0)) := by
    have hmap := map_getD_range ri n hlen
    calc (List.range n).countP (fun i => decide (ri.getD i 0 < ri.getD j 0))
        = ((List.range n).map (fun i => ri.getD i 0)).countP
            (fun x => decide (x < ri.getD j 0)) := by
          rw [List.countP_map]; rfl
      _ = ri.countP (fun x => decide (x < ri.getD j 0)) := by rw [hmap]
  rw [hstep2, hperm.countP_eq]
  apply countP_lt_range
  have : ri.getD j 0 ∈ ri := by
    rw [List.getD_eq_getElem ri 0 (by rwa [hlen])]
    exact List.getElem_mem (by rwa [hlen])
  exact Nat.le_of_lt (mem_lt_of_perm_range hperm this)

/-! ## Novelty archive (`NoveltyArchive` of the source)

The archive is a fixed-capacity matrix of descriptor rows plus a write
cursor.  `update` uses `jax.lax.dynamic_update_slice_in_dim`, whose start
index is clamped so that the whole update fits inside the operand, and then
advances the cursor by one modulo the capacity — exactly as in the source. -/

/-- Content of the novelty archive: `archive` is the list of descriptor rows
(length `size`), `position` the write cursor. -/
structure NoveltyArchive where
  archive : List (List ℚ)
  size : ℕ
  position : ℕ
  deriving DecidableEq

/-- `NoveltyArchive.init size num_descriptors`: all-zero rows, cursor `0`. -/
def NoveltyArchive.init (size num_descriptors : ℕ) : NoveltyArchive :=
  { archive := List.replicate size (List.replicate num_descriptors 0)
    size := size
    position := 0 }

/-- `jax.lax.dynamic_update_slice_in_dim` on axis 0: write the rows of
`rows` as one contiguous block starting at `start`, with the start index
clamped so that the block fits inside `arch`. -/
def dynamicUpdateSliceRows (arch rows : List (List ℚ)) (start : ℕ) :
    List (List ℚ) :=
  let s := min start (arch.length - rows.length)
  arch.take s ++ rows ++ arch.drop (s + rows.length)

/-- `NoveltyArchive.update`: slice-write the descriptor rows at the cursor
and advance the cursor by one modulo `size`. -/
def NoveltyArchive.update (a : NoveltyArchive) (descriptor : List (List ℚ)) :
    NoveltyArchive :=
  { archive := dynamicUpdateSliceRows a.archive descriptor a.position
    size := a.size
    position := (a.position + 1) % a.size }

/-- Euclidean distance of two descriptor rows; `rsqrt` stands for the
backend real square root applied to the sum of squared differences. -/
def euclidDist (rsqrt : ℚ → ℚ) (x y : List ℚ) : ℚ :=
  rsqrt ((List.zipWith (fun a b => (a - b) ^ 2) x y).sum)

/-- Distance of query `q` to archive slot `i`, masked to `∞` on the slots the
cursor has not validated (`¬ (i < position + 1)`), as in the source's
`jnp.where(indices, distance, jnp.inf)`. -/
def maskedVal (rsqrt : ℚ → ℚ) (a : NoveltyArchive) (q : List ℚ)
    (i : ℕ) : WithTop ℚ :=
  if i < a.position + 1 then ((euclidDist rsqrt q (a.archive.getD i [])) : ℚ)
  else ⊤

/-- The finite entries of a list of masked distances: the source converts the
`∞` entries to `NaN`, which `jnp.nanmean` then ignores. -/
def finiteVals (l : List (WithTop ℚ)) : List ℚ :=
  l.filterMap (fun x => WithTop.recTopCoe none some x)

/-- `jnp.nanmean` after the `∞ → NaN` conversion: mean of the finite values,
`none` (the model of `NaN`) when no finite value remains. -/
def nanmean (l : List (WithTop ℚ)) : Option ℚ :=
  if (finiteVals l).length = 0 then none
  else some ((finiteVals l).sum / ((finiteVals l).length : ℚ))

/-- Novelty of a single query descriptor, following the source line by line:
mask the distances, select the `k` smallest via `top_k` of the negated
values (ties to the smaller index), gather them, and `nanmean` the result
with `∞` turned into `NaN`. -/
def NoveltyArchive.noveltyOne (a : NoveltyArchive) (rsqrt : ℚ → ℚ)
    (q : List ℚ) (k : ℕ) : Option ℚ :=
  let v := maskedVal rsqrt a q
  let sel := (argsortAux v a.size).take k
  nanmean (sel.map v)

/-- `NoveltyArchive.novelty`: the source `vmap`s the single-query computation
over the batch of query descriptors. -/
def NoveltyArchive.novelty (a : NoveltyArchive) (rsqrt : ℚ → ℚ)
    (descriptors : List (List ℚ)) (k : ℕ) : List (Option ℚ) :=
  descriptors.map (fun q => a.noveltyOne rsqrt q k)

/-- Specification-side novelty of one query, following the words of the
spec: take the masked distances themselves, sort them ascending, keep the
`k` smallest, and average the finite ones (masked `∞` entries are excluded;
the result is undefined — `none` — if none is finite). -/
def noveltySpecOne (a : NoveltyArchive) (rsqrt : ℚ → ℚ)
    (q : List ℚ) (k : ℕ) : Option ℚ :=
  let vals := (List.range a.size).map (maskedVal rsqrt a q)
  let smallest := (List.insertionSort (· ≤ ·) vals).take k
  if (finiteVals smallest).length = 0 then none
  else some ((finiteVals smallest).sum / ((finiteVals smallest).length : ℚ))

/-- Iterated single-row archive updates (one `update` call per descriptor
row, as performed once per generation by `state_update`). -/
def applyUpdates (a : NoveltyArchive) (rows : List (List ℚ)) :
    NoveltyArchive :=
  rows.foldl (fun acc row => acc.update [row]) a

/-- The `top_k`-based selection of the source computes exactly the
specification's "k smallest then average the finite ones". -/
theorem noveltyOne_eq_spec (a : NoveltyArchive) (rsqrt : ℚ → ℚ)
    (q : List ℚ) (k : ℕ) :
    a.noveltyOne rsqrt q k = noveltySpecOne a rsqrt q k := by
  have hsel : ((argsortAux (maskedVal rsqrt a q) a.size).take k).map
        (maskedVal rsqrt a q)
      = (List.insertionSort (· ≤ ·)
          ((List.range a.size).map (maskedVal rsqrt a q))).take k := by
    rw [List.map_take, map_argsortAux]
  simp only [NoveltyArchive.noveltyOne, noveltySpecOne, nanmean, hsel]

/-- `finiteVals` ignores every `⊤` entry. -/
theorem finiteVals_cons_top (l : List (WithTop ℚ)) :
    finiteVals (⊤ :: l) = finiteVals l := by
  simp [finiteVals]

/-- `finiteVals` keeps every finite entry. -/
theorem finiteVals_cons_coe (c : ℚ) (l : List (WithTop ℚ)) :
    finiteVals ((c : WithTop ℚ) :: l) = c :: finiteVals l := by
  simp [finiteVals]

theorem finiteVals_replicate_top (m : ℕ) :
    finiteVals (List.replicate m (⊤ : WithTop ℚ)) = [] := by
  induction m with
  | zero => rfl
  | succ m ih => rw [List.replicate_succ, finiteVals_cons_top, ih]

/-- Masked distances of a freshly initialised archive: slot `0` carries the
distance to the zero row, every other slot is masked. -/
theorem maskedVal_init_vals (rsqrt : ℚ → ℚ) (S d : ℕ) (hS : 1 ≤ S)
    (q : List ℚ) :
    (List.range S).map (maskedVal rsqrt (NoveltyArchive.init S d) q)
      = ((euclidDist rsqrt q (List.replicate d 0) : ℚ) : WithTop ℚ)
          :: List.replicate (S - 1) ⊤ := by
  obtain ⟨m, rfl⟩ : ∃ m, S = m + 1 :=
    ⟨S - 1, (Nat.succ_pred_eq_of_pos hS).symm⟩
  rw [List.range_succ_eq_map, List.map_cons]
  have h0 : maskedVal rsqrt (NoveltyArchive.init (m + 1) d) q 0
      = ((euclidDist rsqrt q (List.replicate d 0) : ℚ) : WithTop ℚ) := by
    have harch : (NoveltyArchive.init (m + 1) d).archive.getD 0 []
        = List.replicate d 0 := by
      simp [NoveltyArchive.init, List.getD_eq_getElem, List.replicate_succ]
    simp [maskedVal, NoveltyArchive.init, harch]
  have hrest : ((List.range m).map Nat.succ).map
        (maskedVal rsqrt (NoveltyArchive.init (m + 1) d) q)
      = List.replicate m ⊤ := by
    apply List.eq_replicate_iff.mpr
    constructor
    · simp
    · intro b hb
      obtain ⟨i, hi, rfl⟩ := List.mem_map.mp hb
      obtain ⟨j, hj, rfl⟩ := List.mem_map.mp hi
      simp [maskedVal, NoveltyArchive.init, Nat.succ_eq_add_one]
  rw [h0, hrest]
  simp

/-- Novelty of one query against a fresh archive is the distance to the
zero descriptor, for every `k` between `1` and the capacity. -/
theorem noveltyOne_init (rsqrt : ℚ → ℚ) (S d k : ℕ) (q : List ℚ)
    (hk : 1 ≤ k) (hkS : k ≤ S) :
    (NoveltyArchive.init S d).noveltyOne rsqrt q k
      = some (euclidDist rsqrt q (List.replicate d 0)) := by
  have hS : 1 ≤ S := hk.trans hkS
  rw [noveltyOne_eq_spec]
  simp only [noveltySpecOne]
  have hsize : (NoveltyArchive.init S d).size = S := rfl
  rw [hsize, maskedVal_init_vals rsqrt S d hS q]
  set c : WithTop ℚ := ((euclidDist rsqrt q (List.replicate d 0) : ℚ) : WithTop ℚ) with hc
  have hsorted : List.Sorted (· ≤ ·) (c :: List.replicate (S - 1) (⊤ : WithTop ℚ)) := by
    apply List.sorted_cons.mpr
    constructor
    · intro b hb
      rw [List.eq_of_mem_replicate hb]
      exact le_top
    · exact List.pairwise_replicate.mpr (Or.inr le_rfl)
  rw [List.Sorted.insertionSort_eq hsorted]
  obtain ⟨k', rfl⟩ : ∃ k', k = k' + 1 :=
    ⟨k - 1, (Nat.succ_pred_eq_of_pos hk).symm⟩
  rw [List.take_succ_cons, List.take_replicate]
  rw [hc, finiteVals_cons_coe, finiteVals_replicate_top]
  norm_num

/-- C2: for every archive with write cursor position and every batch of query
descriptors, `novelty(descriptors, k)` returns, for each query descriptor,
the mean of the finite values among its `k` smallest masked distances, where
the distance to archive slot `i` is the exact Euclidean norm of the
difference when `i < position + 1` and infinity otherwise, and infinite
selections are converted to NaN and excluded from the mean. -/
theorem claim_C2 (rsqrt : ℚ → ℚ) (a : NoveltyArchive)
    (ds : List (List ℚ)) (k : ℕ) :
    a.novelty rsqrt ds k = ds.map (fun q => noveltySpecOne a rsqrt q k) := by
  unfold NoveltyArchive.novelty
  simp only [noveltyOne_eq_spec]

/-- C8: for every freshly initialized archive (all slots zero, cursor `0`)
and every query descriptor, the novelty equals the Euclidean distance from
the descriptor to the zero vector, for every `k` with `1 ≤ k ≤ size`: the
mask admits only slot `0` and the mean is over that single finite
distance. -/
theorem claim_C8 (rsqrt : ℚ → ℚ) (S d k : ℕ) (ds : List (List ℚ))
    (hk : 1 ≤ k) (hkS : k ≤ S) :
    (NoveltyArchive.init S d).novelty rsqrt ds k
      = ds.map (fun q => some (euclidDist rsqrt q (List.replicate d 0))) := by
  unfold NoveltyArchive.novelty
  apply List.map_congr_left
  intro q _
  exact noveltyOne_init rsqrt S d k q hk hkS

/-- Witness for C8 at a concrete fresh archive and query. -/
theorem claim_C8_witness :
    1 ≤ 1 ∧ (1 : ℕ) ≤ 2 ∧
      (NoveltyArchive.init 2 1).novelty id [[3]] 1
        = [[(3 : ℚ)]].map (fun q => some (euclidDist id q (List.replicate 1 0))) :=
  ⟨le_refl 1, by decide, claim_C8 id 2 1 1 [[3]] (le_refl 1) (by decide)⟩

/-- A single-row slice update at an in-range cursor is a plain `set`. -/
theorem dynamicUpdateSliceRows_single (arch : List (List ℚ)) (row : List ℚ)
    (pos : ℕ) (hpos : pos < arch.length) :
    dynamicUpdateSliceRows arch [row] pos = arch.set pos row := by
  unfold dynamicUpdateSliceRows
  have hmin : min pos (arch.length - 1) = pos :=
    Nat.min_eq_left (Nat.le_sub_one_of_lt hpos)
  simp only [List.length_cons, List.length_nil, hmin]
  rw [List.set_eq_take_cons_drop _ hpos]
  simp

/-- `update` with a single row keeps the archive length. -/
theorem update_single_length (a : NoveltyArchive) (row : List ℚ)
    (hpos : a.position < a.archive.length) :
    ((a.update [row]).archive).length = a.archive.length := by
  unfold NoveltyArchive.update
  rw [dynamicUpdateSliceRows_single a.archive row a.position hpos]
  simp

/-- The modular multi-row write the claim describes: each row `i` of the
descriptor goes to slot `(position + i) mod size`, and the cursor advances
by the number of rows written. -/
def modularUpdate (a : NoveltyArchive) (descriptor : List (List ℚ)) :
    NoveltyArchive :=
  { archive := (List.range descriptor.length).foldl
      (fun arch i => arch.set ((a.position + i) % a.size) (descriptor.getD i []))
      a.archive
    size := a.size
    position := (a.position + descriptor.length) % a.size }

/-- C3 counterexample: on a size-2 archive with cursor 1, writing a 2-row
descriptor leaves the cursor at `(1 + 1) % 2 = 0`, not at the claimed
`(1 + 2) % 2 = 1`; the written block is also clamped to start at slot 0
rather than wrapping around. -/
theorem claim_C3_cex :
    (NoveltyArchive.update ⟨[[0], [0]], 2, 1⟩ [[1], [2]]).position
      ≠ (modularUpdate ⟨[[0], [0]], 2, 1⟩ [[1], [2]]).position := by
  decide

/-- C3 (amended): `update` writes the descriptor rows as one contiguous
block starting at the clamped index `min(position, size − rows)`, and the
returned archive's position equals `(position + 1) mod size` regardless of
the number of rows; in particular a single-row descriptor at an in-range
cursor is written exactly at the cursor, with no error on overwrite. -/
theorem claim_C3 (a : NoveltyArchive) (descriptor : List (List ℚ))
    (row : List ℚ) (hpos : a.position < a.archive.length) :
    (a.update descriptor).archive
        = a.archive.take (min a.position (a.archive.length - descriptor.length))
          ++ descriptor
          ++ a.archive.drop (min a.position (a.archive.length - descriptor.length)
              + descriptor.length)
      ∧ (a.update descriptor).position = (a.position + 1) % a.size
      ∧ (a.update [row]).archive = a.archive.set a.position row := by
  refine ⟨rfl, rfl, ?_⟩
  unfold NoveltyArchive.update
  exact dynamicUpdateSliceRows_single a.archive row a.position hpos

/-- Witness for C3 at a concrete archive and row. -/
theorem claim_C3_witness :
    (1 : ℕ) < 2 ∧
      ((NoveltyArchive.update ⟨[[0], [0]], 2, 1⟩ [[5]]).archive
          = [[0], [5]]
        ∧ (NoveltyArchive.update ⟨[[0], [0]], 2, 1⟩ [[5]]).position = 0) := by
  have h := claim_C3 ⟨[[0], [0]], 2, 1⟩ [[5]] [5] (by decide)
  refine ⟨by decide, ?_, ?_⟩
  · rw [h.2.2]
    decide
  · rw [h.2.1]
    decide

/-- `getD` after `set` at the written slot. -/
theorem getD_set_self_rows (l : List (List ℚ)) (i : ℕ) (x : List ℚ)
    (hi : i < l.length) : (l.set i x).getD i [] = x := by
  rw [List.getD_eq_getElem _ _ (by simpa using hi)]
  simp [List.getElem_set_self]

/-- `getD` after `set` away from the written slot. -/
theorem getD_set_ne_rows (l : List (List ℚ)) (i j : ℕ) (x : List ℚ)
    (hij : i ≠ j) : (l.set i x).getD j [] = l.getD j [] := by
  rcases Nat.lt_or_ge j l.length with hj | hj
  · rw [List.getD_eq_getElem _ _ (by simpa using hj),
      List.getD_eq_getElem _ _ hj]
    exact List.getElem_set_ne hij _
  · rw [List.getD_eq_default _ _ (by simpa using hj),
      List.getD_eq_default _ _ hj]

/-- `applyUpdates` splits over list concatenation. -/
theorem applyUpdates_append (a : NoveltyArchive) (l1 l2 : List (List ℚ)) :
    applyUpdates a (l1 ++ l2) = applyUpdates (applyUpdates a l1) l2 :=
  List.foldl_append _ _ _ _

/-- Size, archive length and cursor of an archive after a run of single-row
updates: the cursor advances once per row, modulo the capacity. -/
theorem applyUpdates_inv :
    ∀ (ds : List (List ℚ)) (a : NoveltyArchive),
      a.archive.length = a.size → a.position < a.size →
        (applyUpdates a ds).size = a.size
          ∧ (applyUpdates a ds).archive.length = a.size
          ∧ (applyUpdates a ds).position = (a.position + ds.length) % a.size := by
  intro ds
  induction ds with
  | nil =>
    intro a hlen hpos
    exact ⟨rfl, hlen, (Nat.mod_eq_of_lt hpos).symm⟩
  | cons row rest ih =>
    intro a hlen hpos
    have hposlen : a.position < a.archive.length := by rwa [hlen]
    have harch : (a.update [row]).archive = a.archive.set a.position row := by
      unfold NoveltyArchive.update
      exact dynamicUpdateSliceRows_single a.archive row a.position hposlen
    have hS : 0 < a.size := Nat.lt_of_le_of_lt (Nat.zero_le _) hpos
    have hlen' : (a.update [row]).archive.length = (a.update [row]).size := by
      rw [harch]
      simpa using hlen
    have hpos' : (a.update [row]).position < (a.update [row]).size :=
      Nat.mod_lt _ hS
    have happly : applyUpdates a (row :: rest) = applyUpdates (a.update [row]) rest := rfl
    obtain ⟨h1, h2, h3⟩ := ih (a.update [row]) hlen' hpos'
    refine ⟨happly ▸ h1, ?_, ?_⟩
    · rw [happly, h2]
      rfl
    · rw [happly, h3]
      show ((a.position + 1) % a.size + rest.length) % a.size
        = (a.position + (rest.length + 1)) % a.size
      rw [Nat.mod_add_mod]
      congr 1
      omega

/-- Content of the archive after a run of single-row updates that does not
wrap: rows land consecutively from the starting cursor, everything else is
untouched. -/
theorem applyUpdates_slots :
    ∀ (ds : List (List ℚ)) (a : NoveltyArchive),
      a.archive.length = a.size → a.position + ds.length ≤ a.size →
        ∀ j, (applyUpdates a ds).archive.getD j []
          = if a.position ≤ j ∧ j < a.position + ds.length
            then ds.getD (j - a.position) []
            else a.archive.getD j [] := by
  intro ds
  induction ds with
  | nil =>
    intro a _ _ j
    simp only [List.length_nil, Nat.add_zero]
    have hcond : ¬ (a.position ≤ j ∧ j < a.position) := by omega
    rw [if_neg hcond]
    rfl
  | cons row rest ih =>
    intro a hlen hfit j
    simp only [List.length_cons] at hfit ⊢
    have hpos : a.position < a.size := by omega
    have hposlen : a.position < a.archive.length := by rwa [hlen]
    have harch : (a.update [row]).archive = a.archive.set a.position row := by
      unfold NoveltyArchive.update
      exact dynamicUpdateSliceRows_single a.archive row a.position hposlen
    have happly : applyUpdates a (row :: rest)
        = applyUpdates (a.update [row]) rest := rfl
    have hlen2 : (a.update [row]).archive.length = (a.update [row]).size := by
      rw [harch]
      simpa using hlen
    rw [happly]
    rcases List.eq_nil_or_concat rest with hrest | ⟨l2, x, hrest⟩
    · subst hrest
      simp only [List.length_nil] at hfit ⊢
      have hnil : applyUpdates (a.update [row]) [] = a.update [row] := rfl
      rw [hnil, harch]
      by_cases hj : j = a.position
      · subst hj
        rw [getD_set_self_rows _ _ _ hposlen, if_pos (by omega)]
        simp
      · rw [getD_set_ne_rows _ _ _ _ (fun he => hj he.symm), if_neg (by omega)]
    · have hrlen : 1 ≤ rest.length := by
        rw [hrest]
        simp
      have hpos1 : (a.update [row]).position = a.position + 1 := by
        show (a.position + 1) % a.size = a.position + 1
        exact Nat.mod_eq_of_lt (by omega)
      have hfit2 : (a.update [row]).position + rest.length ≤ (a.update [row]).size := by
        rw [hpos1]
        show a.position + 1 + rest.length ≤ a.size
        omega
      have hIH := ih (a.update [row]) hlen2 hfit2 j
      rw [hIH, hpos1, harch]
      by_cases hj : j = a.position
      · subst hj
        rw [if_neg (by omega), getD_set_self_rows _ _ _ hposlen,
          if_pos (by omega)]
        simp
      · by_cases hjin : a.position + 1 ≤ j ∧ j < a.position + 1 + rest.length
        · rw [if_pos hjin, if_pos (by omega)]
          have hsub : j - a.position = (j - (a.position + 1)) + 1 := by omega
          rw [hsub]
          rfl
        · rw [if_neg hjin, getD_set_ne_rows _ _ _ _ (fun he => hj he.symm),
            if_neg (by omega)]

/-- C7 counterexample: a size-1 archive written `S + k = 2` single rows ends
with cursor `(0 + 2) % 1 = 0`, not the claimed `k = 1`. -/
theorem claim_C7_cex :
    (applyUpdates (NoveltyArchive.init 1 1) [[1], [2]]).position ≠ 1 := by
  decide

/-- C7 (amended): for a `NoveltyArchive` of size `S` initialized empty,
applying `update` `S + k` times (`k ≥ 1`) with single-row descriptors
`d_1, …, d_{S+k}` yields an archive whose slots `0` through `k-1` hold
`d_{S+1}` through `d_{S+k}` respectively, and whose position equals
`k mod S` (which is `k` exactly when `k < S`), assuming `k ≤ S`. -/
theorem claim_C7 (S k d : ℕ) (ds : List (List ℚ)) (hk : 1 ≤ k) (hkS : k ≤ S)
    (hds : ds.length = S + k) :
    (∀ j, j < k →
        (applyUpdates (NoveltyArchive.init S d) ds).archive.getD j []
          = ds.getD (S + j) [])
      ∧ (applyUpdates (NoveltyArchive.init S d) ds).position = k % S := by
  have hS : 1 ≤ S := hk.trans hkS
  have hinitlen : (NoveltyArchive.init S d).archive.length
      = (NoveltyArchive.init S d).size := by
    simp [NoveltyArchive.init]
  have hinitpos : (NoveltyArchive.init S d).position
      < (NoveltyArchive.init S d).size := hS
  constructor
  · intro j hj
    have hlen1 : (ds.take S).length = S := by
      rw [List.length_take]
      omega
    have hlen2 : (ds.drop S).length = k := by
      rw [List.length_drop]
      omega
    have hupd : applyUpdates (NoveltyArchive.init S d) ds
        = applyUpdates (applyUpdates (NoveltyArchive.init S d) (ds.take S))
            (ds.drop S) := by
      rw [← applyUpdates_append, List.take_append_drop]
    rw [hupd]
    obtain ⟨hsz1, hal1, hpos1⟩ :=
      applyUpdates_inv (ds.take S) (NoveltyArchive.init S d) hinitlen hinitpos
    have hpos2 : (applyUpdates (NoveltyArchive.init S d) (ds.take S)).position = 0 := by
      rw [hpos1, hlen1]
      simp [NoveltyArchive.init]
    have hslot := applyUpdates_slots (ds.drop S)
      (applyUpdates (NoveltyArchive.init S d) (ds.take S))
      (by rw [hal1, hsz1]) (by rw [hpos2, hsz1, hlen2]; simpa using hkS) j
    rw [hslot, hpos2, hlen2, if_pos (by omega)]
    have hjd : j - 0 = j := by omega
    rw [hjd, List.getD_eq_getElem _ _ (by rw [hlen2]; exact hj),
      List.getD_eq_getElem _ _ (by omega)]
    exact (List.getElem_drop' ds (by omega)).symm
  · obtain ⟨_, _, hpos⟩ :=
      applyUpdates_inv ds (NoveltyArchive.init S d) hinitlen hinitpos
    rw [hpos, hds]
    show (0 + (S + k)) % S = k % S
    rw [Nat.zero_add, Nat.add_comm, Nat.add_mul_mod_self_left 
      k S 1|>.symm]
    simp

/-- Witness for C7: size-2 archive, three single-row writes. -/
theorem claim_C7_witness :
    (1 : ℕ) ≤ 1 ∧ (1 : ℕ) ≤ 2 ∧ ([[1], [2], [3]] : List (List ℚ)).length = 2 + 1 ∧
      ((applyUpdates (NoveltyArchive.init 2 1) [[1], [2], [3]]).archive.getD 0 []
          = ([[1], [2], [3]] : List (List ℚ)).getD (2 + 0) []
        ∧ (applyUpdates (NoveltyArchive.init 2 1) [[1], [2], [3]]).position = 1 % 2) := by
  have h := claim_C7 2 1 1 ([[1], [2], [3]] : List (List ℚ))
    (by decide) (by decide) (by decide)
  exact ⟨by decide, by decide, by decide, h.1 0 (by decide), h.2⟩

/-! ## ES gradient estimation (`VanillaESEmitter._es_emitter`)

Parameter-leaf arrays are modelled row-major as flat `List ℚ`: a leaf of
`n` sample rows with `d` parameters per row is a list of length `n * d`,
entry `i * d + j` holding sample `i`, parameter `j`.  `jnp.reshape` is the
identity on the flat representation, so only `repeat`, the axis-0 sum and
the elementwise operations need explicit models. -/

/-- `jnp.repeat(v, m)` (scalar repeats): every entry repeated `m` times in
place. -/
def repeatEach (l : List ℚ) (m : ℕ) : List ℚ :=
  (l.map (fun x => List.replicate m x)).flatten

/-- `jnp.sum(reshape(x, (nRows, -1)), axis=0)` on a flat row-major list:
entry `j` of the result sums the entries `i * width + j`. -/
def sumAxis0 (nRows width : ℕ) (l : List ℚ) : List ℚ :=
  (List.range width).map
    (fun j => ((List.range nRows).map (fun i => l.getD (i * width + j) 0)).sum)

/-- The gradient computation of `_es_emitter` on one parameter leaf,
step by step as in the source: broadcast the rank weights over the leaf
(`reshape(repeat(ranks.ravel(), d), noise.shape)`), multiply with the
gradient noise, reshape to `(n, -1)` and sum over axis 0, negate and divide
by `N * σ` (the full sample number `N`, not the row count `n`), reshape to
the parent's shape, and add the `l2 * parent` regularisation. -/
def codeGradLeaf (N n d : ℕ) (sigma l2 : ℚ) (noise parent ranks : List ℚ) :
    List ℚ :=
  let rb := repeatEach ranks d
  let weighted := List.zipWith (fun a b => a * b) noise rb
  let summed := sumAxis0 n d weighted
  List.zipWith (fun g p => -g / ((N : ℚ) * sigma) + l2 * p) summed parent

/-- The per-leaf gradient rows of `_es_emitter`: `N / 2` rows under
mirroring, `N` rows otherwise, with the divisor always the full `N`. -/
def esGradientLeaf (mirror : Bool) (N d : ℕ) (sigma l2 : ℚ)
    (noise parent ranks : List ℚ) : List ℚ :=
  codeGradLeaf N (if mirror then N / 2 else N) d sigma l2 noise parent ranks

/-- Specification-side gradient formula for one leaf, following the words of
the claim: per parameter `j`, multiply each gradient-noise row elementwise
by its broadcast rank weight, sum over the sample axis, negate, divide by
`N * σ`, and add `l2 * parent`. -/
def specGradLeaf (N n d : ℕ) (sigma l2 : ℚ) (noise parent ranks : List ℚ) :
    List ℚ :=
  (List.range d).map (fun j =>
    -(((List.range n).map
        (fun i => ranks.getD i 0 * noise.getD (i * d + j) 0)).sum)
      / ((N : ℚ) * sigma)
    + l2 * parent.getD j 0)

/-- Entry `i * d + j` of the broadcast rank list is rank `i`. -/
theorem repeatEach_getD (ranks : List ℚ) (d : ℕ) :
    ∀ (i j : ℕ), j < d →
      (repeatEach ranks d).getD (i * d + j) 0 = ranks.getD i 0 := by
  induction ranks with
  | nil =>
    intro i j hj
    simp [repeatEach]
  | cons r rs ih =>
    intro i j hj
    have hexp : repeatEach (r :: rs) d = List.replicate d r ++ repeatEach rs d := by
      simp [repeatEach]
    rw [hexp]
    cases i with
    | zero =>
      rw [Nat.zero_mul, Nat.zero_add,
        List.getD_append _ _ _ _ (by simpa using hj)]
      rw [List.getD_eq_getElem _ _ (by simpa using hj)]
      simp
    | succ i =>
      have hidx : (i + 1) * d + j = d + (i * d + j) := by ring
      rw [hidx, List.getD_append_right _ _ _ _ (by simp)]
      simp only [List.length_replicate]
      have hsub : d + (i * d + j) - d = i * d + j := by omega
      rw [hsub, ih i j hj]
      rfl

theorem repeatEach_length (l : List ℚ) (m : ℕ) :
    (repeatEach l m).length = l.length * m := by
  induction l with
  | nil => simp [repeatEach]
  | cons r rs ih =>
    have hexp : repeatEach (r :: rs) m = List.replicate m r ++ repeatEach rs m := by
      simp [repeatEach]
    rw [hexp]
    simp only [List.length_append, List.length_replicate, ih, List.length_cons]
    ring

/-- `getD` through `zipWith` at an in-range index. -/
theorem getD_zipWith_q (f : ℚ → ℚ → ℚ) (l1 l2 : List ℚ) (k : ℕ)
    (h1 : k < l1.length) (h2 : k < l2.length) :
    (List.zipWith f l1 l2).getD k 0 = f (l1.getD k 0) (l2.getD k 0) := by
  have hk : k < (List.zipWith f l1 l2).length := by
    rw [List.length_zipWith]
    omega
  rw [List.getD_eq_getElem _ _ hk, List.getD_eq_getElem _ _ h1,
    List.getD_eq_getElem _ _ h2]
  exact List.getElem_zipWith

/-- The step-by-step leaf gradient of the source equals the direct
specification formula. -/
theorem codeGradLeaf_eq_spec (N n d : ℕ) (sigma l2 : ℚ)
    (noise parent ranks : List ℚ) (hnoise : noise.length = n * d)
    (hparent : parent.length = d) (hranks : ranks.length = n) :
    codeGradLeaf N n d sigma l2 noise parent ranks
      = specGradLeaf N n d sigma l2 noise parent ranks := by
  have hrb : (repeatEach ranks d).length = n * d := by
    rw [repeatEach_length, hranks]
  have hw : (List.zipWith (fun a b => a * b) noise (repeatEach ranks d)).length
      = n * d := by
    rw [List.length_zipWith, hnoise, hrb]
    simp
  have hsummed : (sumAxis0 n d
      (List.zipWith (fun a b => a * b) noise (repeatEach ranks d))).length = d := by
    simp [sumAxis0]
  apply List.ext_getElem
  · simp only [codeGradLeaf, specGradLeaf, List.length_zipWith, hsummed,
      hparent, List.length_map, List.length_range]
    simp
  · intro j hj1 hj2
    have hjd : j < d := by
      simpa [specGradLeaf] using hj2
    simp only [codeGradLeaf, specGradLeaf]
    rw [List.getElem_zipWith]
    simp only [List.getElem_map, List.getElem_range]
    have hjs : j < (sumAxis0 n d
        (List.zipWith (fun a b => a * b) noise (repeatEach ranks d))).length := by
      rw [hsummed]
      exact hjd
    have hsummedj : (sumAxis0 n d
        (List.zipWith (fun a b => a * b) noise (repeatEach ranks d)))[j]
        = ((List.range n).map (fun i =>
            (List.zipWith (fun a b => a * b) noise
              (repeatEach ranks d)).getD (i * d + j) 0)).sum := by
      simp [sumAxis0]
    rw [hsummedj]
    have hinner : ((List.range n).map (fun i =>
        (List.zipWith (fun a b => a * b) noise
          (repeatEach ranks d)).getD (i * d + j) 0)).sum
        = ((List.range n).map (fun i =>
            ranks.getD i 0 * noise.getD (i * d + j) 0)).sum := by
      apply congrArg
      apply List.map_congr_left
      intro i hi
      have hin : i < n := List.mem_range.mp hi
      have hidx : i * d + j < n * d := by
        calc i * d + j < i * d + d := by omega
          _ = (i + 1) * d := by ring
          _ ≤ n * d := Nat.mul_le_mul_right d hin
      rw [getD_zipWith_q _ _ _ _ (by omega) (by omega)]
      rw [repeatEach_getD ranks d i j hjd]
      ring
    rw [hinner]
    have hjp : j < parent.length := by
      rw [hparent]
      exact hjd
    have hpj : parent[j] = parent.getD j 0 :=
      (List.getD_eq_getElem parent 0 hjp).symm
    rw [hpj]

/-! ## Mirrored noise sampling (`_es_emitter`, mirror branch) -/

/-- Row `i` (a length-`d` slice) of a flat row-major array. -/
def rowOf (d : ℕ) (l : List ℚ) (i : ℕ) : List ℚ :=
  (l.drop (i * d)).take d

/-- The mirrored sample noise of the source: per half-noise row, stack the
row and its negation along a new axis and reshape back — row-major this
interleaves `[+noise, -noise]` pairs in sequence. -/
def sampleNoiseMirror (nHalf d : ℕ) (half : List ℚ) : List ℚ :=
  ((List.range nHalf).map
    (fun i => rowOf d half i ++ (rowOf d half i).map (fun x => -x))).flatten

/-- Under mirroring the source keeps only the positive half rows for the
gradient sum: `gradient_noise = half_sample_noise`. -/
def gradientNoiseMirror (half : List ℚ) : List ℚ := half

theorem flatten_drop_blocks :
    ∀ (i : ℕ) (bs : List (List ℚ)) (L : ℕ), (∀ b ∈ bs, b.length = L) →
      bs.flatten.drop (i * L) = (bs.drop i).flatten := by
  intro i
  induction i with
  | zero => simp
  | succ i ih =>
    intro bs L hb
    cases bs with
    | nil => simp
    | cons b rest =>
      have hbL : b.length = L := hb b (by simp)
      have hstep : (b :: rest).flatten.drop ((i + 1) * L)
          = rest.flatten.drop (i * L) := by
        have hidx : (i + 1) * L = b.length + i * L := by
          rw [hbL]
          ring
        rw [hidx]
        simp only [List.flatten_cons]
        exact List.drop_append (i * L)
      rw [hstep, ih rest L (fun x hx => hb x (by simp [hx]))]
      rfl

theorem rowOf_length (d : ℕ) (half : List ℚ) (nHalf i : ℕ)
    (hlen : half.length = nHalf * d) (hi : i < nHalf) :
    (rowOf d half i).length = d := by
  unfold rowOf
  rw [List.length_take, List.length_drop, hlen]
  have hge : d ≤ nHalf * d - i * d := by
    rw [← Nat.sub_mul]
    have h1 : 1 ≤ nHalf - i := by omega
    calc d = 1 * d := (Nat.one_mul d).symm
      _ ≤ (nHalf - i) * d := Nat.mul_le_mul_right d h1
  omega

/-- C4: with mirrored sampling and an even sample number, the generated
perturbation batch interleaves antithetic pairs: for every pair index `i`
and every leaf, perturbation row `2i+1` is the exact negation of
perturbation row `2i` (which is half-noise row `i`), `gradient_noise` is the
half noise itself, and the batch has the full `N` rows. -/
theorem claim_C4 (N d : ℕ) (half : List ℚ) (heven : N % 2 = 0)
    (hlen : half.length = (N / 2) * d) :
    (∀ i, i < N / 2 →
        rowOf d (sampleNoiseMirror (N / 2) d half) (2 * i) = rowOf d half i
        ∧ rowOf d (sampleNoiseMirror (N / 2) d half) (2 * i + 1)
            = (rowOf d half i).map (fun x => -x))
      ∧ gradientNoiseMirror half = half
      ∧ (sampleNoiseMirror (N / 2) d half).length = N * d := by
  set nHalf := N / 2 with hnh
  set B : ℕ → List ℚ :=
    fun i => rowOf d half i ++ (rowOf d half i).map (fun x => -x) with hB
  have hmirror : sampleNoiseMirror nHalf d half = ((List.range nHalf).map B).flatten := rfl
  have hblen : ∀ b ∈ (List.range nHalf).map B, b.length = 2 * d := by
    intro b hb
    obtain ⟨j, hj, rfl⟩ := List.mem_map.mp hb
    have hjn : j < nHalf := List.mem_range.mp hj
    rw [hB]
    simp only [List.length_append, List.length_map]
    rw [rowOf_length d half nHalf j hlen hjn]
    ring
  have hlenblocks : ((List.range nHalf).map B).length = nHalf := by simp
  have hdropi : ∀ i, i < nHalf →
      ((List.range nHalf).map B).drop i
        = B i :: ((List.range nHalf).map B).drop (i + 1) := by
    intro i hi
    rw [List.drop_eq_getElem_cons (by rw [hlenblocks]; exact hi)]
    congr 1
    simp
  have hrowflat : ∀ i, i < nHalf →
      (sampleNoiseMirror nHalf d half).drop (i * (2 * d))
        = rowOf d half i
          ++ ((rowOf d half i).map (fun x => -x)
            ++ (((List.range nHalf).map B).drop (i + 1)).flatten) := by
    intro i hi
    rw [hmirror, flatten_drop_blocks i _ (2 * d) hblen, hdropi i hi]
    simp [hB, List.append_assoc]
  refine ⟨?_, rfl, ?_⟩
  · intro i hi
    have hrl : (rowOf d half i).length = d := rowOf_length d half nHalf i hlen hi
    have hnegl : ((rowOf d half i).map (fun x => -x)).length = d := by
      rw [List.length_map]
      exact hrl
    constructor
    · unfold rowOf
      have hidx : 2 * i * d = i * (2 * d) := by ring
      rw [hidx, hrowflat i hi]
      exact List.take_left' hrl
    · have hidx : (2 * i + 1) * d = i * (2 * d) + d := by ring
      have hstep : rowOf d (sampleNoiseMirror nHalf d half) (2 * i + 1)
          = ((rowOf d half i).map (fun x => -x)
              ++ (((List.range nHalf).map B).drop (i + 1)).flatten).take d := by
        unfold rowOf
        rw [hidx, ← List.drop_drop, hrowflat i hi, List.drop_left' hrl]
        rfl
      rw [hstep]
      exact List.take_left' hnegl
  · rw [hmirror, List.length_flatten]
    have hrep : ((List.range nHalf).map B).map List.length
        = List.replicate nHalf (2 * d) := by
      apply List.eq_replicate_iff.mpr
      refine ⟨by simp, ?_⟩
      intro b hb
      obtain ⟨x, hx, rfl⟩ := List.mem_map.mp hb
      exact hblen x hx
    rw [hrep, List.sum_const_nat]
    have hdvd : 2 ∣ N := Nat.dvd_of_mod_eq_zero heven
    have hN : nHalf * 2 = N := Nat.div_mul_cancel hdvd
    calc nHalf * (2 * d) = nHalf * 2 * d := by ring
      _ = N * d := by rw [hN]

/-- C1: per parameter leaf, the ES gradient estimate multiplies the
gradient-noise rows (`N/2` rows if mirrored, else `N`) elementwise by their
broadcast rank weights, sums over the sample axis, negates, divides by
`sample_number * sample_sigma` (always the full `N`, also under mirroring),
reshapes to the leaf's shape, and adds `l2_coefficient * parent`
elementwise. -/
theorem claim_C1 (mirror : Bool) (N d : ℕ) (sigma l2 : ℚ)
    (noise parent ranks : List ℚ)
    (hnoise : noise.length = (if mirror then N / 2 else N) * d)
    (hparent : parent.length = d)
    (hranks : ranks.length = (if mirror then N / 2 else N)) :
    esGradientLeaf mirror N d sigma l2 noise parent ranks
      = specGradLeaf N (if mirror then N / 2 else N) d sigma l2
          noise parent ranks :=
  codeGradLeaf_eq_spec N (if mirror then N / 2 else N) d sigma l2
    noise parent ranks hnoise hparent hranks

/-- Witness for C1: non-mirrored, two samples, one parameter. -/
theorem claim_C1_witness :
    ([1, 2] : List ℚ).length = (if false then 2 / 2 else 2) * 1
      ∧ ([5] : List ℚ).length = 1
      ∧ ([3, 4] : List ℚ).length = (if false then 2 / 2 else 2)
      ∧ esGradientLeaf false 2 1 1 1 [1, 2] [5] [3, 4]
          = specGradLeaf 2 (if false then 2 / 2 else 2) 1 1 1 [1, 2] [5] [3, 4] :=
  ⟨by decide, by decide, by decide,
    claim_C1 false 2 1 1 1 [1, 2] [5] [3, 4] (by decide) (by decide) (by decide)⟩

/-- Witness for C4: two samples, one parameter, half noise `[7]`. -/
theorem claim_C4_witness :
    (2 : ℕ) % 2 = 0 ∧ ([7] : List ℚ).length = 2 / 2 * 1
      ∧ (rowOf 1 (sampleNoiseMirror (2 / 2) 1 [7]) (2 * 0) = rowOf 1 [7] 0
          ∧ rowOf 1 (sampleNoiseMirror (2 / 2) 1 [7]) (2 * 0 + 1)
              = (rowOf 1 ([7] : List ℚ) 0).map (fun x => -x))
      ∧ gradientNoiseMirror [7] = [7]
      ∧ (sampleNoiseMirror (2 / 2) 1 [7]).length = 2 * 1 := by
  have h := claim_C4 2 1 [7] (by decide) (by decide)
  exact ⟨by decide, by decide, h.1 0 (by decide), h.2.1, h.2.2⟩

/-! ## Centered rank normalisation (`_es_emitter`, `sample_rank_norm`) -/

/-- The rank transform of the source: double `argsort` of the scores (the
second argsort inverts the first, producing each score's 0-indexed rank
under the stable ascending sort), then rescale by `rank/(N-1) - 0.5`. -/
def rankTransform (n : ℕ) (scores : ℕ → ℚ) : List ℚ :=
  let ri := argsortAux scores n
  let ranks := argsortAux (fun i => ri.getD i 0) n
  ranks.map (fun r : ℕ => (r : ℚ) / ((n : ℚ) - 1) - 1 / 2)

/-- Double argsort computes the stable rank: entry `m` of the rank list is
the number of indices strictly before `m` in the stable ascending order. -/
theorem rankTransform_rank (n : ℕ) (scores : ℕ → ℚ) (m : ℕ) (hm : m < n) :
    (argsortAux (fun i => (argsortAux scores n).getD i 0) n).getD m 0
      = stableRank scores n m := by
  set ri := argsortAux scores n with hri
  set ranksList := argsortAux (fun i => ri.getD i 0) n with hrl
  set rho := ranksList.getD m 0 with hrho
  have hlen : ranksList.length = n := by
    rw [hrl, (argsortAux_perm (fun i => ri.getD i 0) n).length_eq,
      List.length_range]
  have hrho_mem : rho ∈ ranksList := by
    rw [hrho, List.getD_eq_getElem _ _ (by rwa [hlen])]
    exact List.getElem_mem (by rwa [hlen])
  have hrho_lt : rho < n :=
    mem_lt_of_perm_range (argsortAux_perm (fun i => ri.getD i 0) n) hrho_mem
  have h1 : stableRank (fun i => ri.getD i 0) n rho = m := by
    rw [hrho]
    exact stableRank_argsortAux (fun i => ri.getD i 0) n m hm
  have h2 : stableRank (fun i => ri.getD i 0) n rho = ri.getD rho 0 :=
    stableRank_of_perm_range ri n (argsortAux_perm scores n) rho hrho_lt
  have h3 : ri.getD rho 0 = m := by rw [← h2, h1]
  have h4 : stableRank scores n (ri.getD rho 0) = rho :=
    stableRank_argsortAux scores n rho hrho_lt
  rw [h3] at h4
  exact h4.symm

/-- The stable rank is at most `n - 1`. -/
theorem stableRank_le {α : Type} [LinearOrder α] (v : ℕ → α) (n m : ℕ)
    (hm : m < n) : stableRank v n m ≤ n - 1 := by
  have hmem : m ∈ List.range n := List.mem_range.mpr hm
  unfold stableRank
  rw [(List.perm_cons_erase hmem).countP_eq]
  rw [List.countP_cons_of_neg _ _ (by simpa using not_sLex_self v m)]
  calc ((List.range n).erase m).countP (fun j => decide (sLex v j m))
      ≤ ((List.range n).erase m).length := List.countP_le_length _
    _ = n - 1 := by rw [List.length_erase_of_mem hmem, List.length_range]

/-- The stable rank is strictly monotone in the score. -/
theorem stableRank_lt_of_lt {α : Type} [LinearOrder α] (v : ℕ → α)
    (n m m' : ℕ) (hm' : m' < n) (h : v m' < v m) :
    stableRank v n m' < stableRank v n m := by
  have hmem : m' ∈ List.range n := List.mem_range.mpr hm'
  unfold stableRank
  rw [(List.perm_cons_erase hmem).countP_eq,
    (List.perm_cons_erase hmem).countP_eq]
  rw [List.countP_cons_of_neg _ _ (by simpa using not_sLex_self v m'),
    List.countP_cons_of_pos _ _ (by simpa using (Or.inl h : sLex v m' m))]
  have hmono : ((List.range n).erase m').countP (fun j => decide (sLex v j m'))
      ≤ ((List.range n).erase m').countP (fun j => decide (sLex v j m)) := by
    apply List.countP_mono_left
    intro x _ hx
    simp only [decide_eq_true_eq] at hx ⊢
    rcases hx with hlt | ⟨heq, _⟩
    · exact Or.inl (hlt.trans h)
    · exact Or.inl (heq ▸ h)
  omega

/-- Entry `m` of the rank transform output in closed form. -/
theorem rankTransform_getD (n : ℕ) (scores : ℕ → ℚ) (m : ℕ) (hm : m < n) :
    (rankTransform n scores).getD m 0
      = (stableRank scores n m : ℚ) / ((n : ℚ) - 1) - 1 / 2 := by
  simp only [rankTransform]
  have hlen : (argsortAux (fun i => (argsortAux scores n).getD i 0) n).length = n := by
    rw [(argsortAux_perm _ n).length_eq, List.length_range]
  rw [List.getD_eq_getElem _ _ (by rw [List.length_map, hlen]; exact hm),
    List.getElem_map]
  have hm2 : m < (argsortAux (fun i => (argsortAux scores n).getD i 0) n).length := by
    rw [hlen]
    exact hm
  have hval : (argsortAux (fun i => (argsortAux scores n).getD i 0) n)[m]
      = stableRank scores n m := by
    rw [← List.getD_eq_getElem _ 0 hm2]
    exact rankTransform_rank n scores m hm
  rw [hval]

/-- C5: with rank normalisation, each of the `N` scores is replaced by its
0-indexed rank under a stable ascending sort, rescaled as
`rank/(N-1) - 0.5`; every rank weight lies in `[-0.5, 0.5]`, and a strictly
larger score has a strictly larger rank weight (hence `≥` in general, strict
without ties). -/
theorem claim_C5 (n : ℕ) (scores : ℕ → ℚ) (hn : 1 < n) (m : ℕ) (hm : m < n) :
    (rankTransform n scores).getD m 0
        = (stableRank scores n m : ℚ) / ((n : ℚ) - 1) - 1 / 2
      ∧ -(1 / 2) ≤ (rankTransform n scores).getD m 0
      ∧ (rankTransform n scores).getD m 0 ≤ 1 / 2
      ∧ ∀ m', m' < n → scores m' < scores m →
          (rankTransform n scores).getD m' 0 < (rankTransform n scores).getD m 0 := by
  have hcast : ((n : ℚ) - 1) = ((n - 1 : ℕ) : ℚ) := by
    rw [Nat.cast_sub (by omega)]
    simp
  have hpos : (0 : ℚ) < (n : ℚ) - 1 := by
    rw [hcast]
    have : 1 ≤ n - 1 := by omega
    exact_mod_cast Nat.lt_of_lt_of_le Nat.zero_lt_one this
  refine ⟨rankTransform_getD n scores m hm, ?_, ?_, ?_⟩
  · rw [rankTransform_getD n scores m hm]
    have hnum : (0 : ℚ) ≤ (stableRank scores n m : ℚ) / ((n : ℚ) - 1) :=
      div_nonneg (Nat.cast_nonneg _) (le_of_lt hpos)
    linarith
  · rw [rankTransform_getD n scores m hm]
    have hle : (stableRank scores n m : ℚ) ≤ (n : ℚ) - 1 := by
      rw [hcast]
      exact_mod_cast stableRank_le scores n m hm
    have hnum : (stableRank scores n m : ℚ) / ((n : ℚ) - 1) ≤ 1 :=
      (div_le_one hpos).mpr hle
    linarith
  · intro m' hm' hsc
    rw [rankTransform_getD n scores m hm, rankTransform_getD n scores m' hm']
    have hlt : (stableRank scores n m' : ℚ) < (stableRank scores n m : ℚ) := by
      exact_mod_cast stableRank_lt_of_lt scores n m m' hm' hsc
    have hnum : (stableRank scores n m' : ℚ) / ((n : ℚ) - 1)
        < (stableRank scores n m : ℚ) / ((n : ℚ) - 1) :=
      (div_lt_div_iff_of_pos_right hpos).mpr hlt
    linarith

/-- Witness for C5: two scores `0 < 1`, entry `1`. -/
theorem claim_C5_witness :
    (1 : ℕ) < 2 ∧ (1 : ℕ) < 2 ∧
      ((rankTransform 2 (fun i => (i : ℚ))).getD 1 0
          = (stableRank (fun i => (i : ℚ)) 2 1 : ℚ) / ((2 : ℚ) - 1) - 1 / 2
        ∧ -(1 / 2) ≤ (rankTransform 2 (fun i => (i : ℚ))).getD 1 0
        ∧ (rankTransform 2 (fun i => (i : ℚ))).getD 1 0 ≤ 1 / 2
        ∧ ∀ m' : ℕ, m' < 2 → (fun i => (i : ℚ)) m' < (fun i => (i : ℚ)) 1 →
            (rankTransform 2 (fun i => (i : ℚ))).getD m' 0
              < (rankTransform 2 (fun i => (i : ℚ))).getD 1 0) :=
  ⟨by decide, by decide, claim_C5 2 (fun i => (i : ℚ)) (by decide) 1 (by decide)⟩

/-! ## Emitter state machine (`VanillaESEmitter.init/emit/state_update`)

Genotypes are pytrees of JAX arrays; each leaf is modelled as a nested
array `NArr` (so that `x[0]`, which drops the leading axis, stays typeable),
and a genotype as the list of its leaves.  The optimizer state, the random
key and the repertoire are opaque to this core and stay type parameters;
the `_es_emitter` pipeline invoked by `state_update` is passed in as a
function, bound to the already-updated novelty archive exactly as the
source's `scores` closure is. -/

/-- A nested numeric array: a scalar or a stack of subarrays. -/
inductive NArr where
  | scalar : ℚ → NArr
  | stack : List NArr → NArr

/-- `x.shape[0]`: the leading dimension (a scalar has none; the source
errors there, modelled as `0`). -/
def NArr.leadingDim : NArr → ℕ
  | NArr.scalar _ => 0
  | NArr.stack l => l.length

/-- `x[0]`: first slice, dropping the leading axis (junk on scalars, which
the source never hits). -/
def NArr.first : NArr → NArr
  | NArr.scalar q => NArr.scalar q
  | NArr.stack l => l.headD (NArr.stack [])

/-- `jax.tree_util.tree_leaves(genotypes)[0].shape[0]`: the leading
dimension of the first leaf. -/
def firstLeafDim (g : List NArr) : ℕ :=
  (g.headD (NArr.stack [])).leadingDim

/-- The emitter state: optimizer state, offspring, generation counter,
novelty archive, random key. -/
structure VanillaESEmitterState (O K : Type) where
  optimizer_state : O
  offspring : List NArr
  generation_count : ℕ
  novelty_archive : NoveltyArchive
  random_key : K

/-- `VanillaESEmitter.init`: squeeze a multi-genotype batch down to its
first genotype, initialise the optimizer against the stored genotype,
allocate an empty novelty archive, return the state and the key. -/
def VanillaESEmitter.init {O K : Type} (optInit : List NArr → O)
    (total_generations num_descriptors : ℕ)
    (init_genotypes : List NArr) (random_key : K) :
    VanillaESEmitterState O K × K :=
  let g := if 1 < firstLeafDim init_genotypes
    then init_genotypes.map NArr.first
    else init_genotypes
  ({ optimizer_state := optInit g
     offspring := g
     generation_count := 0
     novelty_archive := NoveltyArchive.init total_generations num_descriptors
     random_key := random_key },
   random_key)

/-- `VanillaESEmitter.emit`: return the stored offspring and pass the key
through; the repertoire is ignored. -/
def VanillaESEmitter.emit {R O K : Type} (repertoire : R)
    (emitter_state : VanillaESEmitterState O K) (random_key : K) :
    List NArr × K :=
  (emitter_state.offspring, random_key)

/-- The failure condition of `state_update`'s batch-size assertion. -/
inductive ESError where
  | invalidBatchSize : ESError
  deriving DecidableEq

/-- `VanillaESEmitter.state_update`: assert the evaluated batch has exactly
one genotype, then update the novelty archive, run the ES pipeline
(`esEmitter`, bound to the updated archive), and return the new state with
the generation counter advanced. -/
def VanillaESEmitter.state_update {R O K : Type}
    (esEmitter : NoveltyArchive → List NArr → O → K → List NArr × O × K)
    (emitter_state : VanillaESEmitterState O K) (repertoire : R)
    (genotypes : List NArr) (descriptors : List (List ℚ)) :
    Except ESError (VanillaESEmitterState O K) :=
  if firstLeafDim genotypes = 1 then
    let novelty_archive := emitter_state.novelty_archive.update descriptors
    let r := esEmitter novelty_archive genotypes
      emitter_state.optimizer_state emitter_state.random_key
    Except.ok
      { optimizer_state := r.2.1
        offspring := r.1
        generation_count := emitter_state.generation_count + 1
        novelty_archive := novelty_archive
        random_key := r.2.2 }
  else Except.error ESError.invalidBatchSize

/-- C9: `emit` returns exactly `state.offspring` and the given random key
unchanged, consuming no randomness; two calls on the same state without an
intervening `state_update` return identical offspring. -/
theorem claim_C9 {R O K : Type} (repertoire repertoire2 : R)
    (s : VanillaESEmitterState O K) (k k2 : K) :
    VanillaESEmitter.emit repertoire s k = (s.offspring, k)
      ∧ (VanillaESEmitter.emit repertoire s k).1
          = (VanillaESEmitter.emit repertoire2 s k2).1 :=
  ⟨rfl, rfl⟩

/-- C6: `state_update` fails with `invalidBatchSize` whenever the leading
dimension of the first leaf of the evaluated genotypes is not exactly `1`
(before any state is produced), and only with batch size `1` does it update
the archive and run the ES pipeline. -/
theorem claim_C6 {R O K : Type}
    (esEmitter : NoveltyArchive → List NArr → O → K → List NArr × O × K)
    (s : VanillaESEmitterState O K) (repertoire : R)
    (genotypes : List NArr) (descriptors : List (List ℚ)) :
    (firstLeafDim genotypes ≠ 1 →
        VanillaESEmitter.state_update esEmitter s repertoire genotypes descriptors
          = Except.error ESError.invalidBatchSize)
      ∧ (firstLeafDim genotypes = 1 →
          VanillaESEmitter.state_update esEmitter s repertoire genotypes descriptors
            = Except.ok
                { optimizer_state := (esEmitter (s.novelty_archive.update descriptors)
                    genotypes s.optimizer_state s.random_key).2.1
                  offspring := (esEmitter (s.novelty_archive.update descriptors)
                    genotypes s.optimizer_state s.random_key).1
                  generation_count := s.generation_count + 1
                  novelty_archive := s.novelty_archive.update descriptors
                  random_key := (esEmitter (s.novelty_archive.update descriptors)
                    genotypes s.optimizer_state s.random_key).2.2 }) := by
  constructor
  · intro h
    simp [VanillaESEmitter.state_update, h]
  · intro h
    simp [VanillaESEmitter.state_update, h]

/-- Witness for C6: a batch of leading dimension 2 is rejected, a batch of
leading dimension 1 is accepted. -/
theorem claim_C6_witness :
    firstLeafDim [NArr.stack [NArr.scalar 1, NArr.scalar 2]] ≠ 1
      ∧ VanillaESEmitter.state_update (fun _ g o k => (g, o, k))
          (VanillaESEmitterState.mk () [] 0 (NoveltyArchive.init 1 1) ())
          () [NArr.stack [NArr.scalar 1, NArr.scalar 2]] [[0]]
        = Except.error ESError.invalidBatchSize := by
  constructor
  · decide
  · exact (claim_C6 (fun _ g o k => (g, o, k))
      (VanillaESEmitterState.mk () [] 0 (NoveltyArchive.init 1 1) ())
      () [NArr.stack [NArr.scalar 1, NArr.scalar 2]] [[0]]).1 (by decide)

/-- C10: `init` drops the leading batch axis of every leaf (keeping only the
first slice) when the first leaf's leading dimension exceeds 1, and stores
the genotypes unchanged when it is exactly 1; the optimizer state is
initialised against whichever form is stored. -/
theorem claim_C10 {O K : Type} (optInit : List NArr → O)
    (total_generations num_descriptors : ℕ)
    (init_genotypes : List NArr) (random_key : K) :
    (1 < firstLeafDim init_genotypes →
        (VanillaESEmitter.init optInit total_generations num_descriptors
            init_genotypes random_key).1.offspring
            = init_genotypes.map NArr.first
          ∧ (VanillaESEmitter.init optInit total_generations num_descriptors
              init_genotypes random_key).1.optimizer_state
              = optInit (init_genotypes.map NArr.first))
      ∧ (firstLeafDim init_genotypes = 1 →
          (VanillaESEmitter.init optInit total_generations num_descriptors
              init_genotypes random_key).1.offspring
              = init_genotypes
            ∧ (VanillaESEmitter.init optInit total_generations num_descriptors
                init_genotypes random_key).1.optimizer_state
                = optInit init_genotypes) := by
  constructor
  · intro h
    constructor
    · simp [VanillaESEmitter.init, h]
    · simp [VanillaESEmitter.init, h]
  · intro h
    have hnot : ¬ (1 < firstLeafDim init_genotypes) := by omega
    constructor
    · simp [VanillaESEmitter.init, hnot]
    · simp [VanillaESEmitter.init, hnot]

/-- Witness for C10: a two-genotype batch is squeezed to its first slice, a
one-genotype batch is kept as is. -/
theorem claim_C10_witness :
    1 < firstLeafDim [NArr.stack [NArr.scalar 1, NArr.scalar 2]]
      ∧ (VanillaESEmitter.init (fun g => g) 1 1
          [NArr.stack [NArr.scalar 1, NArr.scalar 2]] ()).1.offspring
          = [NArr.stack [NArr.scalar 1, NArr.scalar 2]].map NArr.first
      ∧ (VanillaESEmitter.init (fun g => g) 1 1
          [NArr.stack [NArr.scalar 1, NArr.scalar 2]] ()).1.optimizer_state
          = [NArr.stack [NArr.scalar 1, NArr.scalar 2]].map NArr.first := by
  have h := (claim_C10 (fun g => g) 1 1
    [NArr.stack [NArr.scalar 1, NArr.scalar 2]] ()).1 (by decide)
  exact ⟨by decide, h.1, h.2⟩
